import Mathlib

/-!
Verification of the frame-sampling and stream-alignment core of `ssfunc`
(`src/ssfunc/util.py`): the `lazylist` pipeline (luma classification,
temporal deduplication, seeded sampling) and the `desync` scanner.

Frame statistics (`PlaneStatsAverage`, `PlaneStatsDiff`) are supplied by an
external host; we model them as lists of rationals indexed by frame number,
read in ascending index order (so the `dark.sort()` / `light.sort()` calls in
the source are identity on the classified lists).  The Python standard
library's global Mersenne-Twister generator (`random.seed` / `random.sample`)
is external to the repository; it is abstracted as a seeding function
`seedFn : ℕ → σ` and a drawing function `sampleFn : σ → List ℕ → ℕ → List ℕ × σ`
over an arbitrary generator-state type `σ`, threaded exactly where the source
mutates the global generator.  Failure (the source's uncaught `IndexError` on
an empty bucket) is modelled by `Option`.
-/

namespace SSFunc

/-- Lower bound of the dark luma range: the literal `0.062746` in `checkclip`. -/
def darkLo : ℚ := 62746 / 1000000

/-- Upper bound of the dark luma range: the literal `0.380000` in `checkclip`. -/
def darkHi : ℚ := 380000 / 1000000

/-- Lower bound of the light luma range: the literal `0.450000` in `checkclip`. -/
def lightLo : ℚ := 450000 / 1000000

/-- Upper bound of the light luma range: the literal `0.800000` in `checkclip`. -/
def lightHi : ℚ := 800000 / 1000000

/-- The desync detection threshold: the literal `0.150000` in `desync`. -/
def desyncThr : ℚ := 150000 / 1000000

/-- The first branch of `checkclip`: `0.062746 <= avg <= 0.380000`. -/
def isDark (avg : ℚ) : Bool :=
  decide (darkLo ≤ avg) && decide (avg ≤ darkHi)

/-- The `elif` branch of `checkclip`: reached only when the dark test failed,
then `0.450000 <= avg <= 0.800000`. -/
def isLight (avg : ℚ) : Bool :=
  !isDark avg && (decide (lightLo ≤ avg) && decide (avg ≤ lightHi))

/-- Indices appended to `dark` by `checkclip` over one pass of the clip, in
ascending order (the source's `dark.sort()` makes the order canonical). -/
def darkFrames (lumas : List ℚ) : List ℕ :=
  (List.range lumas.length).filter fun n => isDark (lumas.getD n 0)

/-- Indices appended to `light` by `checkclip`, in ascending order. -/
def lightFrames (lumas : List ℚ) : List ℕ :=
  (List.range lumas.length).filter fun n => isLight (lumas.getD n 0)

/-- The body of the deduplication loop of `lazylist`.  `pre` is the prefix of
already examined entries (`checklist = dark[0:i]`), `lastval` the running
"last kept" value (`lastvald` / `lastvall`); `x` is kept exactly when some
`y` in the prefix satisfies `x >= y + thr and x >= lastval + thr`. -/
def dedupeAux (thr : ℕ) : List ℕ → ℕ → List ℕ → List ℕ
  | _, _, [] => []
  | pre, lastval, x :: rest =>
    if pre.any fun y => decide (y + thr ≤ x) && decide (lastval + thr ≤ x) then
      x :: dedupeAux thr (pre ++ [x]) x rest
    else
      dedupeAux thr (pre ++ [x]) lastval rest

/-- Temporal deduplication of one bucket: `dark_dedupe = [dark[0]]`, then the
scan of `dedupeAux` over the remaining entries (the source never reaches this
loop with an empty bucket: it fails at `dark[0]` first, handled in
`lazylist`). -/
def dedupe (thr : ℕ) : List ℕ → List ℕ
  | [] => []
  | d0 :: rest => d0 :: dedupeAux thr [d0] d0 rest

/-- Modelled from the spec: the simple greedy rule it claims equivalent —
keep the first index, then keep each subsequent `x` iff `x ≥ lastval + thr`
(inner loop of `greedyDedupe`). -/
def greedyAux (thr : ℕ) : ℕ → List ℕ → List ℕ
  | _, [] => []
  | lastval, x :: rest =>
    if lastval + thr ≤ x then x :: greedyAux thr x rest
    else greedyAux thr lastval rest

/-- Modelled from the spec: keep the first index as the initial last-kept
value, then apply the greedy last-kept-gap rule. -/
def greedyDedupe (thr : ℕ) : List ℕ → List ℕ
  | [] => []
  | d0 :: rest => d0 :: greedyAux thr d0 rest

/-- One sampling block of `lazylist`:
`if len(l) > k: random.seed(seed); l = random.sample(l, k)`, with the global
generator state `g` threaded explicitly. -/
def sampleStep {σ : Type} (seedFn : ℕ → σ) (sampleFn : σ → List ℕ → ℕ → List ℕ × σ)
    (seed k : ℕ) (l : List ℕ) (g : σ) : List ℕ × σ :=
  if k < l.length then sampleFn (seedFn seed) l k else (l, g)

/-- The value a bucket's sampling block produces, as a function of the seed,
the bucket's deduplicated list and its target count only. -/
def bucketDraw {σ : Type} (seedFn : ℕ → σ) (sampleFn : σ → List ℕ → ℕ → List ℕ × σ)
    (seed k : ℕ) (l : List ℕ) : List ℕ :=
  if k < l.length then (sampleFn (seedFn seed) l k).1 else l

/-- The `lazylist` pipeline: classify, deduplicate each bucket, sample each
bucket, concatenate dark ++ light.  `none` models the uncaught `IndexError`
the source raises at `dark[0]` / `light[0]` when a bucket is empty.  `thr` is
the frame-gap threshold the source computes as
`round(clip.fps_num / clip.fps_den * diff_thr)`. -/
def lazylist {σ : Type} (seedFn : ℕ → σ) (sampleFn : σ → List ℕ → ℕ → List ℕ × σ)
    (g0 : σ) (lumas : List ℚ) (dark_frames light_frames seed thr : ℕ) :
    Option (List ℕ) × σ :=
  let dark := darkFrames lumas
  let light := lightFrames lumas
  if dark = [] ∨ light = [] then (none, g0)
  else
    let dark_dedupe := dedupe thr dark
    let light_dedupe := dedupe thr light
    let p1 := sampleStep seedFn sampleFn seed dark_frames dark_dedupe g0
    let p2 := sampleStep seedFn sampleFn seed light_frames light_dedupe p1.2
    (some (p1.1 ++ p2.1), p2.2)

/-- The `desync` scan: walk `i` over `range(start, num_frames)` and report the
first `i` whose `PlaneStatsDiff` exceeds `0.150000`; `none` when the loop
completes without a detection. -/
def desync (diffs : List ℚ) (start : ℕ) : Option ℕ :=
  (List.range' start (diffs.length - start)).find? fun i =>
    decide (desyncThr < diffs.getD i 0)

/-! Lemmas about the deduplication scan. -/

theorem dedupeAux_subset (thr : ℕ) :
    ∀ (rest pre : List ℕ) (lastval x : ℕ), x ∈ dedupeAux thr pre lastval rest → x ∈ rest
  | [], _, _, _, h => by simp [dedupeAux] at h
  | a :: rest, pre, lastval, x, h => by
    rw [dedupeAux] at h
    split at h
    · rcases List.mem_cons.mp h with h1 | h1
      · exact h1 ▸ List.mem_cons_self a rest
      · exact List.mem_cons_of_mem a (dedupeAux_subset thr rest _ _ _ h1)
    · exact List.mem_cons_of_mem a (dedupeAux_subset thr rest _ _ _ h)

theorem dedupeAux_chain (thr : ℕ) :
    ∀ (rest pre : List ℕ) (lastval : ℕ),
      List.Sorted (· < ·) rest → (∀ x ∈ rest, lastval < x) →
      List.Chain' (fun a b => a < b ∧ a + thr ≤ b) (lastval :: dedupeAux thr pre lastval rest)
  | [], _, _, _, _ => by simp [dedupeAux]
  | x :: rest, pre, lastval, hs, hgt => by
    rcases List.sorted_cons.mp hs with ⟨hx, hrest⟩
    rw [dedupeAux]
    split
    case isTrue h =>
      rcases List.any_eq_true.mp h with ⟨y, _, hcond⟩
      have h2 : lastval + thr ≤ x :=
        of_decide_eq_true ((Bool.and_eq_true _ _).mp hcond).2
      exact List.chain'_cons.mpr
        ⟨⟨hgt x (List.mem_cons_self x rest), h2⟩,
          dedupeAux_chain thr rest (pre ++ [x]) x hrest hx⟩
    case isFalse h =>
      exact dedupeAux_chain thr rest (pre ++ [x]) lastval hrest
        fun z hz => hgt z (List.mem_cons_of_mem x hz)

theorem dedupeAux_eq_greedyAux (thr : ℕ) :
    ∀ (rest pre : List ℕ) (lastval : ℕ), lastval ∈ pre →
      dedupeAux thr pre lastval rest = greedyAux thr lastval rest
  | [], _, _, _ => rfl
  | x :: rest, pre, lastval, hmem => by
    rw [dedupeAux, greedyAux]
    by_cases h : lastval + thr ≤ x
    · have hany : (pre.any fun y => decide (y + thr ≤ x) && decide (lastval + thr ≤ x)) = true :=
        List.any_eq_true.mpr ⟨lastval, hmem, by simp [h]⟩
      rw [if_pos hany, if_pos h,
        dedupeAux_eq_greedyAux thr rest (pre ++ [x]) x (by simp)]
    · have hany : (pre.any fun y => decide (y + thr ≤ x) && decide (lastval + thr ≤ x)) = false := by
        simp only [List.any_eq_false]
        intro y _
        simp [h]
      rw [if_neg (by simp [hany]), if_neg h,
        dedupeAux_eq_greedyAux thr rest (pre ++ [x]) lastval (List.mem_append_left _ hmem)]

/-- C1: for every classified bucket list (strictly increasing frame indices)
and every frame-gap threshold `thr` (in particular the source's
`round(fps_num / fps_den * diff_thr)`), the deduplicated list is in ascending
index order and every pair of consecutive kept indices `(a, b)` satisfies
`b - a ≥ thr`, i.e. `a + thr ≤ b`. -/
theorem dedupe_sorted_gap (thr : ℕ) (l : List ℕ) (hl : List.Sorted (· < ·) l) :
    List.Sorted (· < ·) (dedupe thr l) ∧
      List.Chain' (fun a b => a + thr ≤ b) (dedupe thr l) := by
  cases l with
  | nil => simp [dedupe]
  | cons d0 rest =>
    rcases List.sorted_cons.mp hl with ⟨h0, hrest⟩
    have hch := dedupeAux_chain thr rest [d0] d0 hrest h0
    have hd : dedupe thr (d0 :: rest) = d0 :: dedupeAux thr [d0] d0 rest := rfl
    rw [hd]
    constructor
    · exact List.chain'_iff_pairwise.mp (hch.imp fun _ _ h => h.1)
    · exact hch.imp fun _ _ h => h.2

/-- Witness for C1 at the concrete bucket `[0, 3, 4, 9]` with `thr = 3`. -/
theorem dedupe_sorted_gap_witness :
    List.Sorted (· < ·) (dedupe 3 [0, 3, 4, 9]) ∧
      List.Chain' (fun a b => a + 3 ≤ b) (dedupe 3 [0, 3, 4, 9]) :=
  dedupe_sorted_gap 3 [0, 3, 4, 9] (by decide)

/-- C2: on every strictly increasing input list and every threshold, the
source's prefix-scanning deduplication rule produces exactly the same output
as the simple greedy last-kept-gap rule. -/
theorem dedupe_eq_greedyDedupe (thr : ℕ) (l : List ℕ) (hl : List.Sorted (· < ·) l) :
    dedupe thr l = greedyDedupe thr l := by
  cases l with
  | nil => rfl
  | cons d0 rest =>
    show d0 :: dedupeAux thr [d0] d0 rest = d0 :: greedyAux thr d0 rest
    rw [dedupeAux_eq_greedyAux thr rest [d0] d0 (List.mem_singleton.mpr rfl)]

/-- Witness for C2 at the concrete bucket `[0, 3, 4, 9]` with `thr = 3`. -/
theorem dedupe_eq_greedyDedupe_witness :
    dedupe 3 [0, 3, 4, 9] = greedyDedupe 3 [0, 3, 4, 9] :=
  dedupe_eq_greedyDedupe 3 [0, 3, 4, 9] (by decide)

/-! Lemmas about scanning a contiguous index range with `find?`. -/

theorem find?_range'_eq_some (p : ℕ → Bool) :
    ∀ (len s i : ℕ),
      (List.range' s len).find? p = some i ↔
        (s ≤ i ∧ i < s + len ∧ p i = true ∧ ∀ j, s ≤ j → j < i → p j = false)
  | 0, s, i => by
    constructor
    · intro h
      simp [List.range'] at h
    · rintro ⟨h1, h2, -⟩
      omega
  | len + 1, s, i => by
    have hr : List.range' s (len + 1) = s :: List.range' (s + 1) len := by
      simp [List.range']
    rw [hr]
    cases hp : p s with
    | true =>
      rw [List.find?_cons_of_pos _ hp]
      constructor
      · intro h
        have hsi : s = i := by injection h
        subst hsi
        exact ⟨Nat.le_refl s, by omega, hp, fun j hj1 hj2 => by omega⟩
      · rintro ⟨h1, -, h3, h4⟩
        have hsi : i = s := by
          by_contra hne
          have hs : s < i := Nat.lt_of_le_of_ne h1 fun e => hne e.symm
          have := h4 s (Nat.le_refl s) hs
          rw [this] at hp
          exact Bool.false_ne_true hp
        rw [hsi]
    | false =>
      rw [List.find?_cons_of_neg _ (by simp [hp]), find?_range'_eq_some p len (s + 1) i]
      constructor
      · rintro ⟨h1, h2, h3, h4⟩
        refine ⟨by omega, by omega, h3, fun j hj1 hj2 => ?_⟩
        rcases Nat.eq_or_lt_of_le hj1 with hj | hj
        · rw [← hj]
          exact hp
        · exact h4 j hj hj2
      · rintro ⟨h1, h2, h3, h4⟩
        have hne : i ≠ s := by
          intro e
          rw [e, hp] at h3
          exact Bool.noConfusion h3
        exact ⟨by omega, by omega, h3, fun j hj1 hj2 => h4 j (by omega) hj2⟩

theorem find?_congr_of_mem {p q : ℕ → Bool} :
    ∀ l : List ℕ, (∀ x ∈ l, p x = q x) → l.find? p = l.find? q
  | [], _ => rfl
  | a :: l, h => by
    have ha := h a (List.mem_cons_self a l)
    cases hq : q a with
    | true => rw [List.find?_cons_of_pos _ (ha.trans hq), List.find?_cons_of_pos _ hq]
    | false =>
      rw [List.find?_cons_of_neg _ (by simp [ha, hq]), List.find?_cons_of_neg _ (by simp [hq]),
        find?_congr_of_mem l fun x hx => h x (List.mem_cons_of_mem a hx)]

/-- C3: the desync scanner reports `i` iff `i` is the smallest index in
`[start, frame_count)` whose `DiffValue` strictly exceeds `0.150000`; it
reports nothing iff every `DiffValue` in `[start, frame_count)` is at most the
threshold; and its result depends only on the entries at indices `≥ start`,
i.e. it never reads a frame before `start`. -/
theorem desync_first_exceedance (diffs : List ℚ) (start : ℕ) (h : start ≤ diffs.length) :
    (∀ i, desync diffs start = some i ↔
        (start ≤ i ∧ i < diffs.length ∧ desyncThr < diffs.getD i 0 ∧
          ∀ j, start ≤ j → j < i → diffs.getD j 0 ≤ desyncThr)) ∧
    (desync diffs start = none ↔
        ∀ i, start ≤ i → i < diffs.length → diffs.getD i 0 ≤ desyncThr) ∧
    (∀ diffs2 : List ℚ, diffs2.length = diffs.length →
        (∀ j, start ≤ j → j < diffs.length → diffs2.getD j 0 = diffs.getD j 0) →
        desync diffs2 start = desync diffs start) := by
  refine ⟨?_, ?_, ?_⟩
  · intro i
    rw [desync, find?_range'_eq_some]
    constructor
    · rintro ⟨h1, h2, h3, h4⟩
      refine ⟨h1, by omega, of_decide_eq_true h3, fun j hj1 hj2 => ?_⟩
      exact not_lt.mp (of_decide_eq_false (h4 j hj1 hj2))
    · rintro ⟨h1, h2, h3, h4⟩
      exact ⟨h1, by omega, decide_eq_true h3,
        fun j hj1 hj2 => decide_eq_false (not_lt.mpr (h4 j hj1 hj2))⟩
  · rw [desync, List.find?_eq_none]
    constructor
    · intro hall i hi1 hi2
      have hmem : i ∈ List.range' start (diffs.length - start) :=
        List.mem_range'_1.mpr ⟨hi1, by omega⟩
      exact not_lt.mp fun hlt => hall i hmem (decide_eq_true hlt)
    · intro hall i hi
      rcases List.mem_range'_1.mp hi with ⟨h1, h2⟩
      intro hdec
      exact not_lt.mpr (hall i h1 (by omega)) (of_decide_eq_true hdec)
  · intro diffs2 hlen2 hagree
    rw [desync, desync, hlen2]
    refine find?_congr_of_mem _ fun x hx => ?_
    rcases List.mem_range'_1.mp hx with ⟨h1, h2⟩
    rw [hagree x h1 (by omega)]

/-- Witness for C3 on the spec's Scenario D: diff sequence
`[0.01, 0.02, 0.20, 0.03]`, `start = 0`, first exceedance at index 2. -/
theorem desync_first_exceedance_witness :
    (0 : ℕ) ≤ 2 ∧ 2 < ([1/100, 2/100, 20/100, 3/100] : List ℚ).length ∧
      desyncThr < ([1/100, 2/100, 20/100, 3/100] : List ℚ).getD 2 0 ∧
      ∀ j, 0 ≤ j → j < 2 → ([1/100, 2/100, 20/100, 3/100] : List ℚ).getD j 0 ≤ desyncThr :=
  ((desync_first_exceedance [1/100, 2/100, 20/100, 3/100] 0 (Nat.zero_le _)).1 2).mp
    (by norm_num [desync, desyncThr, List.range_succ, List.find?])

/-! Helper lemmas shared by the remaining claims. -/

theorem sampleStep_fst {σ : Type} (seedFn : ℕ → σ) (sampleFn : σ → List ℕ → ℕ → List ℕ × σ)
    (seed k : ℕ) (l : List ℕ) (g : σ) :
    (sampleStep seedFn sampleFn seed k l g).1 = bucketDraw seedFn sampleFn seed k l := by
  rw [sampleStep, bucketDraw]
  split <;> rfl

theorem lazylist_fst {σ : Type} (seedFn : ℕ → σ) (sampleFn : σ → List ℕ → ℕ → List ℕ × σ)
    (g0 : σ) (lumas : List ℚ) (dark_frames light_frames seed thr : ℕ)
    (hd : darkFrames lumas ≠ []) (hl : lightFrames lumas ≠ []) :
    (lazylist seedFn sampleFn g0 lumas dark_frames light_frames seed thr).1 =
      some (bucketDraw seedFn sampleFn seed dark_frames (dedupe thr (darkFrames lumas)) ++
        bucketDraw seedFn sampleFn seed light_frames (dedupe thr (lightFrames lumas))) := by
  simp only [lazylist]
  rw [if_neg (by simp [hd, hl])]
  simp [sampleStep_fst]

theorem mem_dedupe (thr : ℕ) (l : List ℕ) (x : ℕ) (h : x ∈ dedupe thr l) : x ∈ l := by
  cases l with
  | nil => simp [dedupe] at h
  | cons d0 rest =>
    rcases List.mem_cons.mp h with h1 | h1
    · exact h1 ▸ List.mem_cons_self d0 rest
    · exact List.mem_cons_of_mem d0 (dedupeAux_subset thr rest [d0] d0 x h1)

theorem mem_bucketDraw {σ : Type} (seedFn : ℕ → σ) (sampleFn : σ → List ℕ → ℕ → List ℕ × σ)
    (hs : ∀ (g : σ) (l : List ℕ) (k : ℕ), k ≤ l.length → ∀ x ∈ (sampleFn g l k).1, x ∈ l)
    (seed k : ℕ) (l : List ℕ) (x : ℕ)
    (h : x ∈ bucketDraw seedFn sampleFn seed k l) : x ∈ l := by
  rw [bucketDraw] at h
  split at h
  · exact hs (seedFn seed) l k (Nat.le_of_lt (by assumption)) x h
  · exact h

theorem isDark_iff (v : ℚ) : isDark v = true ↔ darkLo ≤ v ∧ v ≤ darkHi := by
  simp [isDark]

theorem isLight_iff (v : ℚ) :
    isLight v = true ↔ ¬(darkLo ≤ v ∧ v ≤ darkHi) ∧ lightLo ≤ v ∧ v ≤ lightHi := by
  by_cases h1 : darkLo ≤ v <;> by_cases h2 : v ≤ darkHi <;>
    by_cases h3 : lightLo ≤ v <;> by_cases h4 : v ≤ lightHi <;>
      simp [isLight, isDark, h1, h2, h3, h4]

theorem darkFrames_pair : darkFrames [1/5, 1/2] = [0] := by
  norm_num [darkFrames, isDark, darkLo, darkHi, List.range_succ]

theorem lightFrames_pair : lightFrames [1/5, 1/2] = [1] := by
  norm_num [lightFrames, isLight, isDark, darkLo, darkHi, lightLo, lightHi, List.range_succ]

/-- C4: `checkclip` puts a frame index in the dark bucket iff its luma lies in
`[0.062746, 0.380000]`, in the light bucket iff its luma is outside the dark
range and lies in `[0.450000, 0.800000]` (all bounds inclusive), and in
neither bucket otherwise; no index is in both buckets. -/
theorem checkclip_classification (lumas : List ℚ) (n : ℕ) :
    (n ∈ darkFrames lumas ↔
        n < lumas.length ∧ darkLo ≤ lumas.getD n 0 ∧ lumas.getD n 0 ≤ darkHi) ∧
    (n ∈ lightFrames lumas ↔
        n < lumas.length ∧ ¬(darkLo ≤ lumas.getD n 0 ∧ lumas.getD n 0 ≤ darkHi) ∧
          lightLo ≤ lumas.getD n 0 ∧ lumas.getD n 0 ≤ lightHi) ∧
    ¬(n ∈ darkFrames lumas ∧ n ∈ lightFrames lumas) := by
  have hdark : n ∈ darkFrames lumas ↔
      n < lumas.length ∧ darkLo ≤ lumas.getD n 0 ∧ lumas.getD n 0 ≤ darkHi := by
    rw [darkFrames, List.mem_filter, List.mem_range, isDark_iff]
  have hlight : n ∈ lightFrames lumas ↔
      n < lumas.length ∧ ¬(darkLo ≤ lumas.getD n 0 ∧ lumas.getD n 0 ≤ darkHi) ∧
        lightLo ≤ lumas.getD n 0 ∧ lumas.getD n 0 ≤ lightHi := by
    rw [lightFrames, List.mem_filter, List.mem_range, isLight_iff]
  refine ⟨hdark, hlight, ?_⟩
  rintro ⟨hd, hl⟩
  exact ((hlight.mp hl).2.1) (hdark.mp hd).2

/-- C5: one bucket's sampling step returns the deduplicated list unchanged
(and leaves the generator untouched) when its length is at most the target
`k`; otherwise, assuming the standard library's `random.sample` contract
(`k` distinct elements of the population, for `k ≤ len`), it returns exactly
`k` distinct elements of the list; in all cases the output length is
`min len k`. -/
theorem sampleStep_bounds {σ : Type} (seedFn : ℕ → σ)
    (sampleFn : σ → List ℕ → ℕ → List ℕ × σ)
    (hs : ∀ (g : σ) (l : List ℕ) (k : ℕ), k ≤ l.length → l.Nodup →
        (sampleFn g l k).1.length = k ∧ (sampleFn g l k).1.Nodup ∧
          ∀ x ∈ (sampleFn g l k).1, x ∈ l)
    (seed k : ℕ) (l : List ℕ) (hl : l.Nodup) (g : σ) :
    (l.length ≤ k → sampleStep seedFn sampleFn seed k l g = (l, g)) ∧
    (k < l.length →
        (sampleStep seedFn sampleFn seed k l g).1.length = k ∧
          (sampleStep seedFn sampleFn seed k l g).1.Nodup ∧
          ∀ x ∈ (sampleStep seedFn sampleFn seed k l g).1, x ∈ l) ∧
    (sampleStep seedFn sampleFn seed k l g).1.length = min l.length k := by
  by_cases h : k < l.length
  · have hcon := hs (seedFn seed) l k (Nat.le_of_lt h) hl
    rw [sampleStep, if_pos h]
    exact ⟨fun hle => absurd h (not_lt.mpr hle), fun _ => hcon,
      by rw [hcon.1]; omega⟩
  · rw [sampleStep, if_neg h]
    exact ⟨fun _ => rfl, fun hlt => absurd hlt h,
      (Nat.min_eq_left (not_lt.mp h)).symm⟩

/-- Witness for C5: sampling `[0, 5, 9]` down to 2 with a concrete sampler
that satisfies the `random.sample` contract. -/
theorem sampleStep_bounds_witness :
    (sampleStep (fun s => s) (fun g l k => (l.take k, g)) 7 2 [0, 5, 9] 0).1.length =
      min ([0, 5, 9] : List ℕ).length 2 :=
  (sampleStep_bounds (fun s => s) (fun g l k => (l.take k, g))
    (fun _ l k hk hnd =>
      ⟨by rw [List.length_take]; exact Nat.min_eq_left hk,
        hnd.sublist (List.take_sublist k l),
        fun x hx => (List.take_sublist k l).subset hx⟩)
    7 2 [0, 5, 9] (by decide) 0).2.2

/-- C6: two runs of the `lazylist` pipeline with identical luma sequence,
target counts, seed and frame-gap threshold produce identical output
sequences, whatever the prior state of the global random generator was in
each run: every draw is preceded by `random.seed(seed)`, which discards the
ambient state. -/
theorem lazylist_deterministic {σ : Type} (seedFn : ℕ → σ)
    (sampleFn : σ → List ℕ → ℕ → List ℕ × σ) (g0 g0' : σ) (lumas : List ℚ)
    (dark_frames light_frames seed thr : ℕ) :
    (lazylist seedFn sampleFn g0 lumas dark_frames light_frames seed thr).1 =
      (lazylist seedFn sampleFn g0' lumas dark_frames light_frames seed thr).1 := by
  by_cases h : darkFrames lumas = [] ∨ lightFrames lumas = []
  · simp [lazylist, h]
  · push_neg at h
    rw [lazylist_fst seedFn sampleFn g0 lumas dark_frames light_frames seed thr h.1 h.2,
      lazylist_fst seedFn sampleFn g0' lumas dark_frames light_frames seed thr h.1 h.2]

/-- C7: the claim asks that an empty classification bucket yield an empty
list for that bucket with no exception; the code instead evaluates `dark[0]`
unconditionally and dies with an uncaught `IndexError` (modelled as `none`)
on any luma sequence whose dark bucket is empty, here the single mid-luma
frame `[0.5]`. -/
theorem lazylist_empty_dark_fails {σ : Type} (seedFn : ℕ → σ)
    (sampleFn : σ → List ℕ → ℕ → List ℕ × σ) (g0 : σ)
    (dark_frames light_frames seed thr : ℕ) :
    (lazylist seedFn sampleFn g0 [1/2] dark_frames light_frames seed thr).1 = none := by
  have hd : darkFrames [1/2] = [] := by
    norm_num [darkFrames, isDark, darkLo, darkHi, List.range_succ]
  simp only [lazylist]
  rw [if_pos (Or.inl hd)]

/-- C8 counterexample: the claim says non-positive target sample counts are
rejected eagerly with an error; instead `lazylist` called with both target
counts zero runs the whole pipeline and returns a result (here the empty
sample drawn from each bucket), not an error. -/
theorem lazylist_no_validation_cex :
    (lazylist (fun s : ℕ => s) (fun g l k => (l.take k, g)) 0 [1/5, 1/2]
        0 0 20202020 1).1 = some [] := by
  norm_num [lazylist, darkFrames_pair, lightFrames_pair, dedupe, dedupeAux, sampleStep]

/-- C8 amended: the entry points perform no parameter validation: `lazylist`
returns normally for every target count and threshold (whenever both buckets
are non-empty), and `desync` with `start` at or beyond the frame count scans
nothing and reports no desync; no error is ever raised for these
parameters. -/
theorem no_param_validation {σ : Type} (seedFn : ℕ → σ)
    (sampleFn : σ → List ℕ → ℕ → List ℕ × σ) (g0 : σ) (lumas : List ℚ)
    (dark_frames light_frames seed thr : ℕ)
    (hd : darkFrames lumas ≠ []) (hl : lightFrames lumas ≠ []) :
    ((lazylist seedFn sampleFn g0 lumas dark_frames light_frames seed thr).1).isSome = true ∧
      ∀ (diffs : List ℚ) (start : ℕ), diffs.length ≤ start → desync diffs start = none := by
  constructor
  · rw [lazylist_fst seedFn sampleFn g0 lumas dark_frames light_frames seed thr hd hl]
    rfl
  · intro diffs start hstart
    rw [desync, Nat.sub_eq_zero_of_le hstart]
    rfl

/-- Witness for C8's amended claim: zero target counts are accepted on a
two-frame clip with one dark and one light frame. -/
theorem no_param_validation_witness :
    ((lazylist (fun s : ℕ => s) (fun g l k => (l.take k, g)) 0 [1/5, 1/2]
        0 0 20202020 1).1).isSome = true :=
  (no_param_validation (fun s : ℕ => s) (fun g l k => (l.take k, g)) 0 [1/5, 1/2]
    0 0 20202020 1 (by rw [darkFrames_pair]; simp) (by rw [lightFrames_pair]; simp)).1

/-- C9: assuming the `random.sample` contract that every drawn element comes
from the population, every frame index returned by `lazylist` has a luma
value inside the dark threshold range or the light threshold range — no
returned index is unclassified. -/
theorem lazylist_output_classified {σ : Type} (seedFn : ℕ → σ)
    (sampleFn : σ → List ℕ → ℕ → List ℕ × σ)
    (hs : ∀ (g : σ) (l : List ℕ) (k : ℕ), k ≤ l.length → ∀ x ∈ (sampleFn g l k).1, x ∈ l)
    (g0 : σ) (lumas : List ℚ) (dark_frames light_frames seed thr : ℕ)
    (out : List ℕ) (n : ℕ)
    (hout : (lazylist seedFn sampleFn g0 lumas dark_frames light_frames seed thr).1 = some out)
    (hn : n ∈ out) :
    (darkLo ≤ lumas.getD n 0 ∧ lumas.getD n 0 ≤ darkHi) ∨
      (lightLo ≤ lumas.getD n 0 ∧ lumas.getD n 0 ≤ lightHi) := by
  by_cases h : darkFrames lumas = [] ∨ lightFrames lumas = []
  · rw [lazylist] at hout
    simp [h] at hout
  · push_neg at h
    rw [lazylist_fst seedFn sampleFn g0 lumas dark_frames light_frames seed thr h.1 h.2] at hout
    have hcat := Option.some_injective _ hout
    rw [← hcat] at hn
    rcases List.mem_append.mp hn with hmem | hmem
    · have h1 : n ∈ dedupe thr (darkFrames lumas) :=
        mem_bucketDraw seedFn sampleFn hs seed dark_frames _ n hmem
      have h2 : n ∈ darkFrames lumas := mem_dedupe thr _ n h1
      rw [darkFrames, List.mem_filter] at h2
      exact Or.inl ((isDark_iff _).mp h2.2)
    · have h1 : n ∈ dedupe thr (lightFrames lumas) :=
        mem_bucketDraw seedFn sampleFn hs seed light_frames _ n hmem
      have h2 : n ∈ lightFrames lumas := mem_dedupe thr _ n h1
      rw [lightFrames, List.mem_filter] at h2
      exact Or.inr ((isLight_iff _).mp h2.2).2

/-- Witness for C9 on the clip `[0.2, 0.5]`: index 0 of the output is
classified (it is dark). -/
theorem lazylist_output_classified_witness :
    (darkLo ≤ ([1/5, 1/2] : List ℚ).getD 0 0 ∧ ([1/5, 1/2] : List ℚ).getD 0 0 ≤ darkHi) ∨
      (lightLo ≤ ([1/5, 1/2] : List ℚ).getD 0 0 ∧ ([1/5, 1/2] : List ℚ).getD 0 0 ≤ lightHi) :=
  lazylist_output_classified (fun s : ℕ => s) (fun g l k => (l.take k, g))
    (fun _ l k _ x hx => (List.take_sublist k l).subset hx)
    0 [1/5, 1/2] 8 4 20202020 1 [0, 1] 0
    (by norm_num [lazylist, darkFrames_pair, lightFrames_pair, dedupe, dedupeAux, sampleStep])
    (by decide)

/-- C10: the generator is reseeded with the same seed immediately before each
bucket's draw, so each bucket's sampled output is a function of the seed,
that bucket's deduplicated list and its target count only — independent of
the other bucket and of whether the other bucket was sampled; in particular
equal deduplicated lists with equal target counts yield identical draws. -/
theorem lazylist_bucket_independent {σ : Type} (seedFn : ℕ → σ)
    (sampleFn : σ → List ℕ → ℕ → List ℕ × σ) (g0 : σ) (lumas : List ℚ)
    (dark_frames light_frames seed thr : ℕ)
    (hd : darkFrames lumas ≠ []) (hl : lightFrames lumas ≠ []) :
    (lazylist seedFn sampleFn g0 lumas dark_frames light_frames seed thr).1 =
      some (bucketDraw seedFn sampleFn seed dark_frames (dedupe thr (darkFrames lumas)) ++
        bucketDraw seedFn sampleFn seed light_frames (dedupe thr (lightFrames lumas))) ∧
    (dedupe thr (darkFrames lumas) = dedupe thr (lightFrames lumas) →
      dark_frames = light_frames →
      bucketDraw seedFn sampleFn seed dark_frames (dedupe thr (darkFrames lumas)) =
        bucketDraw seedFn sampleFn seed light_frames (dedupe thr (lightFrames lumas))) := by
  refine ⟨lazylist_fst seedFn sampleFn g0 lumas dark_frames light_frames seed thr hd hl, ?_⟩
  intro h1 h2
  rw [h1, h2]

/-- Witness for C10 on the clip `[0.2, 0.5]` with targets 8 and 4. -/
theorem lazylist_bucket_independent_witness :
    (lazylist (fun s : ℕ => s) (fun g l k => (l.take k, g)) 0 [1/5, 1/2]
        8 4 20202020 1).1 =
      some (bucketDraw (fun s : ℕ => s) (fun g l k => (l.take k, g)) 20202020 8
          (dedupe 1 (darkFrames [1/5, 1/2])) ++
        bucketDraw (fun s : ℕ => s) (fun g l k => (l.take k, g)) 20202020 4
          (dedupe 1 (lightFrames [1/5, 1/2]))) ∧
    (dedupe 1 (darkFrames [1/5, 1/2]) = dedupe 1 (lightFrames [1/5, 1/2]) →
      (8 : ℕ) = 4 →
      bucketDraw (fun s : ℕ => s) (fun g l k => (l.take k, g)) 20202020 8
          (dedupe 1 (darkFrames [1/5, 1/2])) =
        bucketDraw (fun s : ℕ => s) (fun g l k => (l.take k, g)) 20202020 4
          (dedupe 1 (lightFrames [1/5, 1/2]))) :=
  lazylist_bucket_independent (fun s : ℕ => s) (fun g l k => (l.take k, g)) 0 [1/5, 1/2]
    8 4 20202020 1 (by rw [darkFrames_pair]; simp) (by rw [lightFrames_pair]; simp)

end SSFunc
